import Mathlib

/-!
Verification development for the rglob glob-pattern compiler and matcher
(rglob.h / RGlobCore.cpp), shallowly embedded over byte lists.

Bytes of patterns, targets and compiled programs are modelled as `Nat`
values (0..255); a byte read through a `const char*` one past the end of a
`std::string` buffer yields the NUL terminator, which the model reflects by
defaulting out-of-range reads to 0 (`byteAt`).  Code points are `Nat`.
The compiler's `std::string fsm` accumulator is passed explicitly; C++
exceptions become `Except` errors carrying the diagnostic pattern suffix.
-/

namespace rglob

/-- Byte read at offset `i`; out-of-range reads give 0 (the NUL terminator
that backs `const char*` access into `std::string` storage). -/
def byteAt (s : List Nat) (i : Nat) : Nat := s.getD i 0

/-- `sizeOfUTF8CodePoint` from rglob.h: length in bytes of a UTF-8 code point
given its lead byte; 0 for an illegal lead byte (table-driven in the source,
the table being constant on the ranges below). -/
def sizeOfUTF8CodePoint (c : Nat) : Nat :=
  let b := c &&& 0xff
  if b < 0x80 then 1
  else if b < 0xc0 then 0
  else if b < 0xe0 then 2
  else if b < 0xf0 then 3
  else if b < 0xf8 then 4
  else 0

/-- The `isascii` macro from rglob.h: `(int)(c) < 128` on a non-negative value. -/
def isascii (c : Nat) : Bool := decide (c < 128)

/-- Helper for `validateUTF8String`: `k` pending continuation bytes must each
match `10xxxxxx`; afterwards scanning restarts at the next lead byte. -/
def utf8chk : Nat → List Nat → Bool
  | 0, [] => true
  | _ + 1, [] => false
  | 0, c :: rest =>
    match sizeOfUTF8CodePoint c with
    | 0 => false
    | 1 => utf8chk 0 rest
    | n => utf8chk (n - 1) rest
  | k + 1, b :: rest => (b &&& 0xc0 == 0x80) && utf8chk k rest

/-- `validateUTF8String` from RGlobCore.cpp: structural validity of a UTF-8
byte sequence (legal lead bytes, correct continuation count and pattern,
no truncation at end of buffer). -/
def validateUTF8String (v : List Nat) : Bool := utf8chk 0 v

/-- `codePointToUTF8` from rglob.h: standard UTF-8 encoding of a code point. -/
def codePointToUTF8 (c : Nat) : List Nat :=
  if c < 0x80 then [c]
  else if c < 0x800 then
    [0xc0 ||| (c >>> 6), (c &&& 0x3f) ||| 0x80]
  else if c < 0x10000 then
    [0xe0 ||| (c >>> 12), ((c >>> 6) &&& 0x3f) ||| 0x80, (c &&& 0x3f) ||| 0x80]
  else
    [0xf0 ||| (c >>> 18), ((c >>> 12) &&& 0x3f) ||| 0x80,
     ((c >>> 6) &&& 0x3f) ||| 0x80, (c &&& 0x3f) ||| 0x80]

/-- `basic_utf8iterator::codePointFromUTF8`: decode the code point whose
lead byte sits at offset `i`. -/
def codePointAt (s : List Nat) (i : Nat) : Nat :=
  let c := byteAt s i
  match sizeOfUTF8CodePoint c with
  | 1 => c
  | 2 => (c &&& 0x1f) <<< 6 ||| (byteAt s (i+1) &&& 0x3f)
  | 3 => (c &&& 0xf) <<< 12 ||| ((byteAt s (i+1) &&& 0x3f) <<< 6) ||| (byteAt s (i+2) &&& 0x3f)
  | 4 => (c &&& 0x7) <<< 18 ||| ((byteAt s (i+1) &&& 0x3f) <<< 12) |||
         ((byteAt s (i+2) &&& 0x3f) <<< 6) ||| (byteAt s (i+3) &&& 0x3f)
  | _ => 0

/-- `basic_utf8iterator::operator++`: advance a byte offset by the length of
the code point at that offset. -/
def utf8adv (s : List Nat) (i : Nat) : Nat := i + sizeOfUTF8CodePoint (byteAt s i)

/-- `LengthSize` from rglob.h: number of characters in a base64-encoded length field. -/
def LengthSize : Nat := 2

/-- `compiler::AllowedMaxFSM` from rglob.h: `4096 - 1`. -/
def AllowedMaxFSM : Nat := 4096 - 1

/-- The RFC 4648 base-64 alphabet used by `compiler::base64Digit`
(A-Z, a-z, 0-9, +, /), as byte values. -/
def base64Alphabet : List Nat :=
  List.range' 65 26 ++ List.range' 97 26 ++ List.range' 48 10 ++ [43, 47]

/-- `compiler::base64Digit`: alphabet character of `n & 0x3f`. -/
def base64Digit (n : Nat) : Nat := base64Alphabet.getD (n &&& 0x3f) 0

/-- The lowercase hex alphabet used by `compiler::hexDigit`. -/
def hexAlphabet : List Nat := List.range' 48 10 ++ List.range' 97 6

/-- `compiler::hexDigit`: hex character of `n & 0xf`. -/
def hexDigit (n : Nat) : Nat := hexAlphabet.getD (n &&& 0xf) 0

/-- `matcher::base64Value`: the inverse table of the base-64 alphabet,
0 for characters outside it (taken on `c & 0x7f`). -/
def base64Value (c0 : Nat) : Nat :=
  let c := c0 &&& 0x7f
  if c = 43 then 62
  else if c = 47 then 63
  else if 48 ≤ c ∧ c ≤ 57 then c - 48 + 52
  else if 65 ≤ c ∧ c ≤ 90 then c - 65
  else if 97 ≤ c ∧ c ≤ 122 then c - 97 + 26
  else 0

/-- `matcher::hexValue`: the inverse table of the hex alphabet (both cases),
0 for characters outside it (taken on `c & 0x7f`). -/
def hexValue (c0 : Nat) : Nat :=
  let c := c0 &&& 0x7f
  if 48 ≤ c ∧ c ≤ 57 then c - 48
  else if 65 ≤ c ∧ c ≤ 70 then c - 65 + 10
  else if 97 ≤ c ∧ c ≤ 102 then c - 97 + 10
  else 0

/-- `compiler::emitLengthAt`: overwrite the two-character length field at
position `i` with `base64Digit((n & 0xfc) >> 6)` and `base64Digit(n & 0x3f)`,
exactly as the source writes it. -/
def emitLengthAt (fsm : List Nat) (i n : Nat) : List Nat :=
  (fsm.set i (base64Digit ((n &&& 0xfc) >>> 6))).set (i+1) (base64Digit (n &&& 0x3f))

/-- `std::bitset<128>::flip(c)` on a bitmap modelled as a `Nat`. -/
def bitFlip (b c : Nat) : Nat := b ^^^ (1 <<< c)

/-- The `for (auto c = c1; c <= c3; c++) b.flip(c);` loop of the fast path. -/
def bitFlipRange (b c1 c3 : Nat) : Nat := (List.range' c1 (c3 + 1 - c1)).foldl bitFlip b

/-- The fast-path member loop of `compiler::compileClass`: scan the class body
until the terminating `]`, flipping the bit of each single member and every
bit of each range `c1-c3` (a `-` directly before `]` counts as a member). -/
def flipLoop : List Nat → Nat → Nat
  | [], b => b
  | c1 :: c2 :: c3 :: rest2, b =>
    if c1 = 93 then b
    else if c2 = 45 ∧ c3 ≠ 93 then flipLoop rest2 (bitFlipRange b c1 c3)
    else flipLoop (c2 :: c3 :: rest2) (bitFlip b c1)
  | c1 :: rest, b =>
    if c1 = 93 then b else flipLoop rest (bitFlip b c1)

/-- The complete fast-path bitmap computation of `compiler::compileClass`:
start all-zero, set all 128 bits if inverted, flip `]` if it was escaped as
leading member, then run the member loop over the class body. -/
def classBitset (invert lcb : Bool) (body : List Nat) : Nat :=
  let b0 : Nat := if invert then 2 ^ 128 - 1 else 0
  let b1 : Nat := if lcb then bitFlip b0 93 else b0
  flipLoop body b1

/-- The nibble `compiler::emitPackedBitset` builds for bits `c .. c+3`
(weights 1, 2, 4, 8). -/
def nibbleOf (b c : Nat) : Nat :=
  (if b.testBit c then 1 else 0) ||| (if b.testBit (c+1) then 2 else 0) |||
  (if b.testBit (c+2) then 4 else 0) ||| (if b.testBit (c+3) then 8 else 0)

/-- `compiler::emitPackedBitset`: 32 lowercase hex characters, 4 bits each,
bit 127 first (the loop runs `c = 124, 120, ..., 0`). -/
def emitPackedBitset (b : Nat) : List Nat :=
  (List.range 32).map (fun j => hexDigit (nibbleOf b (124 - 4 * j)))

/-- `find_first_of` from offset `o`: index of the first byte satisfying `p`. -/
def findIdxFrom (pattern : List Nat) (o : Nat) (p : Nat → Bool) : Option Nat :=
  ((pattern.drop o).findIdx? p).map (· + o)

/-- Compiler errors: the exceptions thrown by `compiler::compile`, with the
diagnostic pattern suffix their messages carry; `outOfFuel` is the model's
marker for loops the C++ source only exits on well-formed input. -/
inductive CErr where
  | invalidUTF8Pattern
  | missingClassTerminator (suffix : List Nat)
  | patternTooLarge (suffix : List Nat)
  | outOfFuel
  deriving DecidableEq

/-- The general-path member loop of `compiler::compileClass`: step code point
by code point until the terminating `]` (then emit the `]` sentinel and step
past it), emitting `-` lo hi for a range and `+` cp for a single member.
Returns the extended fsm and the byte offset just past the `]`. -/
def genLoop (pattern : List Nat) : Nat → Nat → List Nat → Except CErr (List Nat × Nat)
  | 0, _, _ => .error .outOfFuel
  | fuel + 1, u, acc =>
    if codePointAt pattern u = 93 then .ok (acc ++ [93], utf8adv pattern u)
    else
      let c1 := codePointAt pattern u
      let u1 := utf8adv pattern u
      if codePointAt pattern u1 = 45 ∧ codePointAt pattern (utf8adv pattern u1) ≠ 93 then
        let u2 := utf8adv pattern u1
        genLoop pattern fuel (utf8adv pattern u2)
          (acc ++ [45] ++ codePointToUTF8 c1 ++ codePointToUTF8 (codePointAt pattern u2))
      else
        genLoop pattern fuel u1 (acc ++ [43] ++ codePointToUTF8 c1)

/-- `compiler::compileClass`: compile one bracket class starting at the `[`
at offset `base`.  Checks the optional `!`/`^` invert character and optional
leading literal `]`, requires a terminating `]` (else
`missingClassTerminator` carrying the pattern suffix from the `[`), then
either emits `{` plus the packed 128-bit bitmap (all-ASCII fast path) or the
`[` header, invert flag, backfilled length, member operators and `]` sentinel
(general path).  Returns the extended fsm and the bytes consumed. -/
def compileClass (pattern : List Nat) (base : Nat) (fsm : List Nat) :
    Except CErr (List Nat × Nat) :=
  let pos := fsm.length
  let p1 := base + 1
  let invert := byteAt pattern p1 == 33 || byteAt pattern p1 == 94
  let p2 := if invert then p1 + 1 else p1
  let lcb := byteAt pattern p2 == 93
  let p3 := if lcb then p2 + 1 else p2
  match findIdxFrom pattern p3 (· == 93) with
  | none => .error (.missingClassTerminator (pattern.drop base))
  | some close =>
    if ((pattern.drop p3).take (close - p3)).all isascii then
      .ok (fsm ++ [123] ++ emitPackedBitset (classBitset invert lcb (pattern.drop p3)),
           close + 1 - base)
    else
      let fsm1 := fsm ++ [91, hexDigit (if invert then 1 else 0)]
      let lenPos := fsm1.length
      let fsm2 := fsm1 ++ [95, 95]
      let fsm3 := if lcb then fsm2 ++ [43, 93] else fsm2
      match genLoop pattern (pattern.length + 1) p3 fsm3 with
      | .error e => .error e
      | .ok (fsm4, uEnd) =>
        .ok (emitLengthAt fsm4 lenPos (fsm4.length - pos - (1 + 1 + LengthSize + 1)),
             uEnd - base)

/-- `compiler::compileString`: compile a literal run starting at offset `o`,
extending to the next `?`, `*`, `[` or the end of the pattern: emit `=`, a
backfilled two-character length, and the raw bytes.  Returns the extended
fsm and the bytes consumed. -/
def compileString (pattern : List Nat) (o : Nat) (fsm : List Nat) : List Nat × Nat :=
  let lenPos := fsm.length + 1
  let n :=
    match findIdxFrom pattern o (fun c => c == 63 || c == 42 || c == 91) with
    | some i => i - o
    | none => pattern.length - o
  let fsm2 := (fsm ++ [61, 95, 95]) ++ (pattern.drop o).take n
  (emitLengthAt fsm2 lenPos n, n)

/-- One iteration of the element dispatch in `compiler::compile`:
`?` and `*` emit themselves, `[` compiles a class, anything else a literal run. -/
def elemStep (pattern : List Nat) (pi : Nat) (fsm : List Nat) :
    Except CErr (List Nat × Nat) :=
  if byteAt pattern pi = 63 then .ok (fsm ++ [63], 1)
  else if byteAt pattern pi = 42 then .ok (fsm ++ [42], 1)
  else if byteAt pattern pi = 91 then compileClass pattern pi fsm
  else .ok (compileString pattern pi fsm)

/-- The element loop of `compiler::compile`.  After every element the checked
variant enforces `emitted() > AllowedMaxFSM → length_error` carrying the
unconsumed pattern suffix; `checked = false` is the same loop with the
size check disabled, used to state what the compiled form of a pattern would
be without the limit. -/
def compileLoop (checked : Bool) (pattern : List Nat) :
    Nat → Nat → List Nat → Except CErr (List Nat)
  | 0, pi, fsm => if pi = pattern.length then .ok fsm else .error .outOfFuel
  | fuel' + 1, pi, fsm =>
    if pi = pattern.length then .ok fsm
    else
      match elemStep pattern pi fsm with
      | .error e => .error e
      | .ok (fsm', incr) =>
        if checked && decide (AllowedMaxFSM < fsm'.length) then
          .error (.patternTooLarge (pattern.drop pi))
        else compileLoop checked pattern fuel' (pi + incr) fsm'

/-- `compiler::compile`: validate the pattern as structural UTF-8, emit the
`#` header with a two-character length field, run the element loop, then
backfill the header length (total bytes minus header size); an empty pattern
leaves the canonical empty program. -/
def compileWith (checked : Bool) (pattern : List Nat) : Except CErr (List Nat) :=
  if validateUTF8String pattern then
    match compileLoop checked pattern (pattern.length + 1) 0 [35, 95, 95] with
    | .error e => .error e
    | .ok fsm =>
      if 1 + LengthSize < fsm.length then
        .ok (emitLengthAt fsm 1 (fsm.length - (1 + LengthSize)))
      else .ok []
  else .error .invalidUTF8Pattern

/-- `compiler::compile` with the source's size limit enforced. -/
def compile (pattern : List Nat) : Except CErr (List Nat) := compileWith true pattern

/-- `matcher::decodeLengthAt`: `base64Value(d0) * 64 + base64Value(d1)`. -/
def decodeLengthAt (prog : List Nat) (i : Nat) : Nat :=
  base64Value (byteAt prog i) * 64 + base64Value (byteAt prog (i+1))

/-- `matcher::decodeModifierAt`. -/
def decodeModifierAt (prog : List Nat) (i : Nat) : Nat := hexValue (byteAt prog i)

/-- `matcher::packedBitsetMask`: `"\x8\4\2\1"[(127 - b) & 3]`. -/
def packedBitsetMask (b : Nat) : Nat := [8, 4, 2, 1].getD ((127 - b) &&& 3) 0

/-- `matcher::packedBitsetNibbleAt`: hex value of the character at
`i + ((127 - b) >> 2)`. -/
def packedBitsetNibbleAt (prog : List Nat) (i b : Nat) : Nat :=
  hexValue (byteAt prog (i + ((127 - b) >>> 2)))

/-- `matcher::testPackedBitsetAt`: test bit `b` of the packed bitmap at `i`. -/
def testPackedBitsetAt (prog : List Nat) (i b : Nat) : Bool :=
  decide (packedBitsetNibbleAt prog i b &&& packedBitsetMask b ≠ 0)

/-- `std::find_if` over a `utf8iterator` range: first code-point offset at or
after `i`, strictly before the end of `t`, whose code point satisfies `pred`. -/
def findCP (t : List Nat) (pred : Nat → Bool) : Nat → Nat → Option Nat
  | 0, _ => none
  | fuel + 1, i =>
    if i = t.length then none
    else if pred (codePointAt t i) then some i
    else findCP t pred fuel (utf8adv t i)

/-- `std::string_view::find(ptr, o, n)`: position of the first occurrence of
`pat` in `t` at or after `o`, if any. -/
def findSub (t pat : List Nat) (o : Nat) : Option Nat :=
  (List.range (t.length + 1)).find?
    (fun j => decide (o ≤ j) && ((t.drop j).take pat.length == pat))

/-- Matcher errors: the `invalid_argument` thrown on an invalid UTF-8 target,
plus the model's fuel marker for executions the C++ source only exits on
well-formed programs. -/
inductive MErr where
  | invalidUTF8Target
  | outOfFuel
  deriving DecidableEq

/-- The local state of `matcher::match`: instruction offset `mi`, target
byte offset `ti` (the cursor), the `anchored` mode flag, and the bracket
class registers `invert` and `next`. -/
structure MState where
  mi : Nat
  ti : Nat
  anchored : Bool
  invert : Bool
  next : Nat
  deriving DecidableEq

/-- Result of one iteration of the dispatch loop of `matcher::match`:
either the whole match resolves (`done`) or execution continues. -/
inductive StepRes where
  | done (b : Bool)
  | cont (s : MState)
  deriving DecidableEq

/-- One iteration of the opcode dispatch of `matcher::match`, faithful to the
source case by case ('#', '?', '*', '[', '{', '+', '-', ']', '=', and the
no-case default); when `mi` reaches `last` the loop exits and the match
succeeds iff the cursor consumed all target text or `anchored` is false. -/
def rstep (prog target : List Nat) (last : Nat) (s : MState) : StepRes :=
  if s.mi = last then .done (decide (s.ti = target.length) || !s.anchored)
  else
    let m := s.mi + 1
    if byteAt prog s.mi = 35 then
      .cont ⟨m + LengthSize, s.ti, s.anchored, s.invert, s.next⟩
    else if byteAt prog s.mi = 63 then
      .cont ⟨m, utf8adv target s.ti, true, s.invert, s.next⟩
    else if byteAt prog s.mi = 42 then
      .cont ⟨m, s.ti, false, s.invert, s.next⟩
    else if byteAt prog s.mi = 91 then
      .cont ⟨m + 1 + LengthSize, s.ti, s.anchored, decide (decodeModifierAt prog m ≠ 0),
             m + 1 + LengthSize + decodeLengthAt prog (m+1) + 1⟩
    else if byteAt prog s.mi = 123 then
      if s.anchored then
        if isascii (codePointAt target s.ti) && testPackedBitsetAt prog m (codePointAt target s.ti) then
          .cont ⟨m + 32, utf8adv target s.ti, s.anchored, s.invert, s.next⟩
        else .done false
      else
        match findCP target (fun tx => isascii tx && testPackedBitsetAt prog m tx)
              (target.length + 1) s.ti with
        | none => .done false
        | some i => .cont ⟨m + 32, utf8adv target i, true, s.invert, s.next⟩
    else if byteAt prog s.mi = 43 then
      let p := codePointAt prog m
      let m2 := m + sizeOfUTF8CodePoint (byteAt prog m)
      if s.anchored then
        if Bool.xor (decide (p = codePointAt target s.ti)) s.invert then
          .cont ⟨s.next, utf8adv target s.ti, s.anchored, s.invert, s.next⟩
        else .cont ⟨m2, s.ti, s.anchored, s.invert, s.next⟩
      else
        match findCP target (fun tx => Bool.xor (decide (p = tx)) s.invert)
              (target.length + 1) s.ti with
        | none => .cont ⟨m2, s.ti, s.anchored, s.invert, s.next⟩
        | some i => .cont ⟨s.next, utf8adv target i, true, s.invert, s.next⟩
    else if byteAt prog s.mi = 45 then
      let p1 := codePointAt prog m
      let m1 := m + sizeOfUTF8CodePoint (byteAt prog m)
      let p2 := codePointAt prog m1
      let m2 := m1 + sizeOfUTF8CodePoint (byteAt prog m1)
      if s.anchored then
        if Bool.xor (decide (p1 ≤ codePointAt target s.ti ∧ codePointAt target s.ti ≤ p2)) s.invert then
          .cont ⟨s.next, utf8adv target s.ti, s.anchored, s.invert, s.next⟩
        else .cont ⟨m2, s.ti, s.anchored, s.invert, s.next⟩
      else
        match findCP target (fun tx => Bool.xor (decide (p1 ≤ tx ∧ tx ≤ p2)) s.invert)
              (target.length + 1) s.ti with
        | none => .cont ⟨m2, s.ti, s.anchored, s.invert, s.next⟩
        | some i => .cont ⟨s.next, utf8adv target i, true, s.invert, s.next⟩
    else if byteAt prog s.mi = 93 then .done false
    else if byteAt prog s.mi = 61 then
      let n := decodeLengthAt prog m
      match findSub target ((prog.drop (m + LengthSize)).take n) s.ti with
      | none => .done false
      | some i =>
        if s.anchored && decide (i ≠ s.ti) then .done false
        else
          .cont ⟨m + LengthSize + n, (if s.anchored then s.ti + n else i + n), true,
                 s.invert, s.next⟩
    else .cont ⟨m, s.ti, s.anchored, s.invert, s.next⟩

/-- The dispatch loop of `matcher::match`, iterating `rstep` with fuel (the
C++ loop terminates only on well-formed programs). -/
def matchLoop (prog target : List Nat) (last : Nat) : Nat → MState → Except MErr Bool
  | fuel, s =>
    match rstep prog target last s with
    | .done b => .ok b
    | .cont s' =>
      match fuel with
      | 0 => .error .outOfFuel
      | fuel' + 1 => matchLoop prog target last fuel' s'

/-- `strlen` on the model's byte lists: index of the first NUL, else length. -/
def strlenL (l : List Nat) : Nat := l.findIdx (· == 0)

/-- `matcher::cend`: one past the last program byte, taken from the header
length field when the program starts with `#`, else via `strlen`. -/
def progEnd (prog : List Nat) : Nat :=
  if byteAt prog 0 = 35 then 1 + LengthSize + decodeLengthAt prog 1 else strlenL prog

/-- `matcher::match`: validate the target as structural UTF-8 then run the
dispatch loop from offset 0 with the cursor at 0 and `anchored` true. -/
def matcherMatch (prog target : List Nat) : Except MErr Bool :=
  if validateUTF8String target then
    matchLoop prog target (progEnd prog)
      ((prog.length + target.length + 2) * (prog.length + 2)) ⟨0, 0, true, false, 0⟩
  else .error .invalidUTF8Target

/-- Modelled from the spec: the number of times the fast-path member loop
covers code point `c` — once per single member equal to `c` and once per
range containing `c`, parsed with the same `-`-before-`]`-is-literal rule as
`flipLoop`.  This is the specification-side count the net-effect claim about
the emitted bitmap is compared against. -/
def countCover (c : Nat) : List Nat → Nat
  | [] => 0
  | c1 :: c2 :: c3 :: rest2 =>
    if c1 = 93 then 0
    else if c2 = 45 ∧ c3 ≠ 93 then
      (if c1 ≤ c ∧ c ≤ c3 then 1 else 0) + countCover c rest2
    else (if c1 = c then 1 else 0) + countCover c (c2 :: c3 :: rest2)
  | c1 :: rest =>
    if c1 = 93 then 0 else (if c1 = c then 1 else 0) + countCover c rest

/-- Modelled from the spec: total coverage of `c` by a class, counting the
escaped leading `]` member when present. -/
def classCover (lcb : Bool) (body : List Nat) (c : Nat) : Nat :=
  (if lcb ∧ c = 93 then 1 else 0) + countCover c body

/-- A pattern whose compiled form exceeds the 4095-byte limit: one
general-path bracket class `[α a…a]` with the Greek letter alpha (bytes
206 177, forcing the general path) followed by 2043 `a` members.  Its
compiled form is 4097 bytes. -/
def bigPat : List Nat := [91, 206, 177] ++ (List.replicate 2043 97 ++ [93])

/-- The class bytes the compiler emits for `bigPat` before the two length
backfills: header, `[`, invert digit, length placeholder, `+`-operator for
alpha, 2043 `+`-operators for `a`, and the `]` sentinel. -/
def bigFSM4 : List Nat :=
  [35, 95, 95, 91, 48, 95, 95, 43, 206, 177] ++ ((List.replicate 2043 [43, 97]).flatten ++ [93])

/-- The membership test one opcode of a bracket class applies at target
offset `p`, as written in the corresponding `matcher::match` case: the
bitmap test for the fast path, and the single/range comparison
exclusive-or'ed with the invert flag for the general path. -/
def classTestAt (prog target : List Nat) (s : MState) (p : Nat) : Bool :=
  if byteAt prog s.mi = 123 then
    isascii (codePointAt target p) && testPackedBitsetAt prog (s.mi + 1) (codePointAt target p)
  else if byteAt prog s.mi = 43 then
    Bool.xor (decide (codePointAt prog (s.mi + 1) = codePointAt target p)) s.invert
  else if byteAt prog s.mi = 45 then
    Bool.xor (decide (codePointAt prog (s.mi + 1) ≤ codePointAt target p ∧
      codePointAt target p ≤
        codePointAt prog (s.mi + 1 + sizeOfUTF8CodePoint (byteAt prog (s.mi + 1))))) s.invert
  else false

/-! ### Helper lemmas -/

theorem byteAt_set_self {l : List Nat} {i : Nat} (a : Nat) (h : i < l.length) :
    byteAt (l.set i a) i = a := by
  simp [byteAt, List.getD_eq_getElem?_getD, List.getElem?_set_self h]

theorem byteAt_set_ne {l : List Nat} {i j : Nat} (a : Nat) (h : i ≠ j) :
    byteAt (l.set i a) j = byteAt l j := by
  simp [byteAt, List.getD_eq_getElem?_getD, List.getElem?_set_ne h]

theorem length_emitLengthAt (fsm : List Nat) (i n : Nat) :
    (emitLengthAt fsm i n).length = fsm.length := by
  simp [emitLengthAt]

theorem base64Value_base64Digit : ∀ m, m < 64 → base64Value (base64Digit m) = m := by decide

theorem byteAt_drop (P : List Nat) (u i : Nat) : byteAt (P.drop u) i = byteAt P (u + i) := by
  simp [byteAt, List.getD_eq_getElem?_getD, List.getElem?_drop]

theorem sizeOfUTF8_ascii {c : Nat} (hc : c < 128) : sizeOfUTF8CodePoint c = 1 := by
  have h1 : c &&& 0xff = c := by
    have h2 := Nat.and_pow_two_sub_one_eq_mod c 8
    norm_num at h2
    rw [h2]
    omega
  simp only [sizeOfUTF8CodePoint, h1]
  rw [if_pos hc]

theorem codePointAt_of_byte_ascii {P : List Nat} {i c : Nat} (h : byteAt P i = c)
    (hc : c < 128) : codePointAt P i = c := by
  simp only [codePointAt, h, sizeOfUTF8_ascii hc]

theorem utf8adv_of_byte_ascii {P : List Nat} {i c : Nat} (h : byteAt P i = c)
    (hc : c < 128) : utf8adv P i = i + 1 := by
  simp only [utf8adv, h, sizeOfUTF8_ascii hc]

theorem codePointAt_two {P : List Nat} {i b0 b1 : Nat} (h0 : byteAt P i = b0)
    (h1 : byteAt P (i+1) = b1) (hs : sizeOfUTF8CodePoint b0 = 2) :
    codePointAt P i = (b0 &&& 0x1f) <<< 6 ||| (b1 &&& 0x3f) := by
  simp only [codePointAt, h0, h1, hs]

theorem and252_shiftRight_6 (n : Nat) : (n &&& 252) >>> 6 = n / 64 % 4 := by
  apply Nat.eq_of_testBit_eq
  intro i
  have h64 : n / 64 = n >>> 6 := by
    rw [Nat.shiftRight_eq_div_pow]
  have h4 : n / 64 % 4 = n >>> 6 % 2 ^ 2 := by rw [h64]; norm_num
  rw [Nat.testBit_shiftRight, Nat.testBit_and, h4, Nat.testBit_mod_two_pow,
    Nat.testBit_shiftRight]
  have h252 : Nat.testBit 252 (6 + i) = decide (i < 2) := by
    match i with
    | 0 => decide
    | 1 => decide
    | j + 2 =>
      have hlt : (252 : Nat) < 2 ^ (6 + (j + 2)) := by
        calc (252 : Nat) < 2 ^ 8 := by norm_num
        _ ≤ 2 ^ (6 + (j + 2)) := Nat.pow_le_pow_right (by norm_num) (by omega)
      simp [Nat.testBit_lt_two_pow hlt]
  rw [h252, Bool.and_comm]

/-!
### C1 — the two-character base-64 length field

`emitLengthAt` writes `base64Digit((n & 0xfc) >> 6)` and
`base64Digit(n & 0x3f)`; masking with `0xfc` rather than `0xfc0` keeps only
bits 6 and 7 of `n` in the leading digit, so `decodeLengthAt` recovers
`n mod 256`, not `n`, and the claimed round-trip fails for every length in
256..4095 even though the field design (two base-64 digits,
`AllowedMaxFSM = 4095`) is made to carry values up to 4095.
-/

/-- C1: the length field round-trip as the code actually computes it — for a
length field written at an in-range position `i`, `decodeLengthAt` returns
`n % 256`.  The claimed identity `decode (emit n) = n` for all `n ≤ 4095`
therefore fails at every `n ≥ 256` (for example `n = 256` decodes to 0),
while holding for `n ≤ 255`. -/
theorem decodeLengthAt_emitLengthAt (fsm : List Nat) (i n : Nat) (h : i + 1 < fsm.length) :
    decodeLengthAt (emitLengthAt fsm i n) i = n % 256 := by
  have hi : i < fsm.length := by omega
  have hd0 : byteAt (emitLengthAt fsm i n) i = base64Digit ((n &&& 0xfc) >>> 6) := by
    rw [emitLengthAt, byteAt_set_ne _ (by omega), byteAt_set_self _ hi]
  have hd1 : byteAt (emitLengthAt fsm i n) (i + 1) = base64Digit (n &&& 0x3f) := by
    rw [emitLengthAt, byteAt_set_self _ (by simpa using h)]
  have hlow : n &&& 0x3f = n % 64 := by
    have := Nat.and_pow_two_sub_one_eq_mod n 6
    norm_num at this
    exact this
  have hhigh : (n &&& 0xfc) >>> 6 = n / 64 % 4 := and252_shiftRight_6 n
  rw [decodeLengthAt, hd0, hd1,
    base64Value_base64Digit _ (by rw [hhigh]; omega),
    base64Value_base64Digit _ (by rw [hlow]; omega), hhigh, hlow]
  omega

/-- Witness for C1 at `n = 256`: the field written for length 256 decodes to
`256 % 256 = 0`. -/
theorem decodeLengthAt_emitLengthAt_witness :
    0 + 1 < ([0, 0] : List Nat).length ∧
      decodeLengthAt (emitLengthAt [0, 0] 0 256) 0 = 256 % 256 :=
  ⟨by decide, decodeLengthAt_emitLengthAt [0, 0] 0 256 (by decide)⟩

/-!
### C2 — the single-wildcard opcode at end of target

The `case '?':` of `matcher::match` is `anchored = true, ++ti;` with no
end-of-target test: at end of target the iterator consumes the NUL
terminator and moves past the end.  Consequently the pattern `"?*"` matches
the empty target (the `*` then clears `anchored`), where the claim requires
the `?` at end-of-target to fail the whole match.
-/

/-- C2: evaluating the code at the failing input — compiling `"?*"`
(bytes `[63, 42]`) and matching the empty target returns `true`: the `?` at
end of target does not fail; it advances the cursor past the end (consuming
the NUL terminator) and the trailing `*` then makes the match succeed. -/
theorem singleWildcard_no_end_check :
    compile [63, 42] = .ok [35, 65, 67, 63, 42] ∧
      matcherMatch [35, 65, 67, 63, 42] [] = .ok true := by
  exact ⟨by rfl, by rfl⟩

/-!
### C5 — the termination condition of the matcher loop
-/

/-- C5: for every compiled program and structurally valid UTF-8 target, when
the dispatch loop reaches the end of the instruction sequence (the offset
`matcher::cend` computes) without an intervening failure, the match returns
success exactly when the cursor consumed the whole target or `anchored` is
false. -/
theorem match_termination (prog target : List Nat) (fuel : Nat) (s : MState)
    (hv : validateUTF8String target = true) (h : s.mi = progEnd prog) :
    matchLoop prog target (progEnd prog) fuel s
      = .ok (decide (s.ti = target.length) || !s.anchored) := by
  rw [matchLoop, rstep, if_pos h]

/-- Witness for C5 on the empty program and empty target: the loop exits
immediately with success. -/
theorem match_termination_witness :
    validateUTF8String [] = true ∧ (⟨0, 0, true, false, 0⟩ : MState).mi = progEnd [] ∧
      matchLoop [] [] (progEnd []) 0 ⟨0, 0, true, false, 0⟩
        = .ok (decide ((0 : Nat) = ([] : List Nat).length) || !true) :=
  ⟨by decide, by decide, match_termination [] [] 0 ⟨0, 0, true, false, 0⟩ (by decide) (by decide)⟩

/-!
### C9 — the empty pattern and the canonical empty program
-/

/-- C9: compiling the empty pattern yields the canonical empty program
(`compile` clears the fsm when only the header was emitted), and that
program matches the empty target and rejects every non-empty structurally
valid UTF-8 target (the loop exits immediately with `anchored` still true,
so success requires the cursor, still 0, to equal the target length). -/
theorem empty_pattern_empty_program :
    compile [] = .ok [] ∧ matcherMatch [] [] = .ok true ∧
      ∀ t : List Nat, t ≠ [] → validateUTF8String t = true →
        matcherMatch [] t = .ok false := by
  refine ⟨by rfl, by rfl, ?_⟩
  intro t ht hv
  have hlen : t.length ≠ 0 := by simpa using ht
  rw [matcherMatch, if_pos hv, matchLoop, rstep]
  simp [progEnd, byteAt, strlenL, hlen]
  omega

/-- Witness for C9 at the non-empty target `"a"`. -/
theorem empty_pattern_empty_program_witness :
    matcherMatch [] [97] = .ok false :=
  empty_pattern_empty_program.2.2 [97] (by decide) (by decide)

/-!
### C8 — unterminated bracket class
-/

/-- C8: whenever a bracket class starting at offset `base` has no `]` after
the optional `!`/`^` invert character and the optional leading literal `]`
(offset `p3` is where `find_first_of(']')` starts), `compileClass` fails
with `missingClassTerminator` carrying the pattern suffix from the `[`; and
concretely the boundary pattern `"[A-Z][0-9][^0-9*"` makes `compile` fail
with that error carrying the suffix `"[^0-9*"`, producing no program. -/
theorem missing_class_terminator
    : (∀ (pattern : List Nat) (base : Nat) (fsm : List Nat) (p3 : Nat),
        p3 = (let p1 := base + 1
              let invert := byteAt pattern p1 == 33 || byteAt pattern p1 == 94
              let p2 := if invert then p1 + 1 else p1
              if byteAt pattern p2 == 93 then p2 + 1 else p2) →
        93 ∉ pattern.drop p3 →
        compileClass pattern base fsm
          = .error (.missingClassTerminator (pattern.drop base))) ∧
      compile [91, 65, 45, 90, 93, 91, 48, 45, 57, 93, 91, 94, 48, 45, 57, 42]
        = .error (.missingClassTerminator [91, 94, 48, 45, 57, 42]) := by
  constructor
  · intro pattern base fsm p3 hp3 hno
    have hfind : findIdxFrom pattern p3 (· == 93) = none := by
      rw [findIdxFrom, Option.map_eq_none']
      rw [List.findIdx?_eq_none_iff]
      intro x hx
      simp only [beq_eq_false_iff_ne, ne_eq]
      intro hxeq
      exact hno (hxeq ▸ hx)
    rw [compileClass]
    simp only [← hp3, hfind]
  · rfl

/-- Witness for C8's universal part at the class `"[^0"` (no terminator). -/
theorem missing_class_terminator_witness :
    compileClass [91, 94, 48] 0 []
      = .error (.missingClassTerminator [91, 94, 48]) :=
  missing_class_terminator.1 [91, 94, 48] 0 [] 2 (by decide) (by decide)

/-!
### C10 — a trailing `-` before `]` is a literal member
-/

/-- C10: in both class representations a `-` that directly precedes the
closing `]` is a literal single member, not a range operator.  Part 1: the
fast-path member loop treats a member followed by `"-]"` as a single member
(the range guard `peek != ']'` fails).  Part 2: the loop then flips the `-`
itself as a single member.  Part 3: the general-path loop at `"-]"` emits a
single-member operator `+` for the `-` and the closing sentinel.  Part 4:
concretely, `"[a-]"` (fast path) matches exactly `"a"` and `"-"` among
`"a"`, `"-"`, `"b"`, and `"[я-]"` (general path) matches `"я"` and `"-"`
but not `"a"`. -/
theorem trailing_dash_is_literal :
    (∀ (b c1 : Nat) (rest : List Nat), c1 ≠ 93 →
        flipLoop (c1 :: 45 :: 93 :: rest) b = flipLoop (45 :: 93 :: rest) (bitFlip b c1)) ∧
      (∀ (b : Nat) (rest : List Nat), flipLoop (45 :: 93 :: rest) b = bitFlip b 45) ∧
      (∀ (pattern : List Nat) (fuel u : Nat) (acc : List Nat),
        codePointAt pattern u = 45 →
        codePointAt pattern (utf8adv pattern u) = 93 →
        genLoop pattern (fuel + 2) u acc
          = .ok (acc ++ [43, 45, 93], utf8adv pattern (utf8adv pattern u))) ∧
      (compile [91, 97, 45, 93]).map (fun P => matcherMatch P [97]) = .ok (.ok true) ∧
      (compile [91, 97, 45, 93]).map (fun P => matcherMatch P [45]) = .ok (.ok true) ∧
      (compile [91, 97, 45, 93]).map (fun P => matcherMatch P [98]) = .ok (.ok false) ∧
      (compile [91, 209, 143, 45, 93]).map (fun P => matcherMatch P [209, 143]) = .ok (.ok true) ∧
      (compile [91, 209, 143, 45, 93]).map (fun P => matcherMatch P [45]) = .ok (.ok true) ∧
      (compile [91, 209, 143, 45, 93]).map (fun P => matcherMatch P [97]) = .ok (.ok false) := by
  refine ⟨?_, ?_, ?_, by rfl, by rfl, by rfl, by rfl, by rfl, by rfl⟩
  · intro b c1 rest hc1
    simp [flipLoop, hc1]
  · intro b rest
    match rest with
    | [] => simp [flipLoop]
    | c3 :: rest2 =>
      cases rest2 with
      | nil => simp [flipLoop]
      | cons c4 rest3 => simp [flipLoop]
  · intro pattern fuel u acc h45 h93
    rw [genLoop]
    simp only [h45]
    norm_num
    have henc : codePointToUTF8 45 = [45] := rfl
    rw [h93]
    norm_num [henc]
    rw [genLoop]
    simp [h93]

/-- Witness for C10's universal parts at the class body `"a-]"` over an
all-zero bitmap, and the general loop on the pattern suffix `"-]"`. -/
theorem trailing_dash_is_literal_witness :
    flipLoop [97, 45, 93] 0 = flipLoop [45, 93] (bitFlip 0 97) ∧
      flipLoop [45, 93] (bitFlip 0 97) = bitFlip (bitFlip 0 97) 45 ∧
      genLoop [45, 93] 2 0 [] = .ok ([43, 45, 93], 2) :=
  ⟨trailing_dash_is_literal.1 0 97 [] (by decide),
   trailing_dash_is_literal.2.1 (bitFlip 0 97) [],
   trailing_dash_is_literal.2.2.1 [45, 93] 0 0 [] (by decide) (by decide)⟩

/-!
### C4 — the 4095-byte size limit
-/

theorem genLoop_length_le (pattern : List Nat) :
    ∀ (fuel u : Nat) (acc out : List Nat) (uEnd : Nat),
      genLoop pattern fuel u acc = .ok (out, uEnd) → acc.length ≤ out.length := by
  intro fuel
  induction fuel with
  | zero => intro u acc out uEnd h; simp [genLoop] at h
  | succ fuel ih =>
    intro u acc out uEnd h
    rw [genLoop] at h
    split at h
    · simp only [Except.ok.injEq, Prod.mk.injEq] at h
      rw [← h.1]
      simp
    · simp only [] at h
      split at h
      · have := ih _ _ _ _ h
        simp at this
        omega
      · have := ih _ _ _ _ h
        simp at this
        omega

theorem compileClass_length_le (pattern : List Nat) (base : Nat) (fsm fsm' : List Nat)
    (incr : Nat) (h : compileClass pattern base fsm = .ok (fsm', incr)) :
    fsm.length ≤ fsm'.length := by
  rw [compileClass] at h
  repeat' split at h
  all_goals try (simp only [] at h)
  all_goals try (split at h)
  all_goals simp only [Except.ok.injEq, Prod.mk.injEq, reduceCtorEq] at h
  all_goals rw [← h.1]
  all_goals try (simp; done)
  all_goals rw [length_emitLengthAt]
  all_goals rename_i fsm4 uEnd heq
  all_goals have hg := genLoop_length_le pattern _ _ _ _ _ heq
  all_goals simp at hg
  all_goals omega

theorem compileString_length_le (pattern : List Nat) (o : Nat) (fsm : List Nat) :
    fsm.length ≤ (compileString pattern o fsm).1.length := by
  rw [compileString]
  simp [length_emitLengthAt]

theorem elemStep_length_le (pattern : List Nat) (pi : Nat) (fsm fsm' : List Nat)
    (incr : Nat) (h : elemStep pattern pi fsm = .ok (fsm', incr)) :
    fsm.length ≤ fsm'.length := by
  rw [elemStep] at h
  split at h
  · simp only [Except.ok.injEq, Prod.mk.injEq] at h
    rw [← h.1]; simp
  · split at h
    · simp only [Except.ok.injEq, Prod.mk.injEq] at h
      rw [← h.1]; simp
    · split at h
      · exact compileClass_length_le pattern pi fsm fsm' incr h
      · simp only [Except.ok.injEq] at h
        have hs := compileString_length_le pattern pi fsm
        rw [h] at hs
        simpa using hs

theorem compileLoop_unchecked_length_le (pattern : List Nat) :
    ∀ (fuel pi : Nat) (fsm out : List Nat),
      compileLoop false pattern fuel pi fsm = .ok out → fsm.length ≤ out.length := by
  intro fuel
  induction fuel with
  | zero =>
    intro pi fsm out h
    rw [compileLoop] at h
    split at h
    · simp only [Except.ok.injEq] at h
      exact Nat.le_of_eq (congrArg List.length h)
    · simp at h
  | succ fuel ih =>
    intro pi fsm out h
    rw [compileLoop] at h
    split at h
    · simp only [Except.ok.injEq] at h
      exact Nat.le_of_eq (congrArg List.length h)
    · split at h
      · simp at h
      · rename_i fsm2 incr2 heq
        simp only [Bool.false_and, Bool.false_eq_true, if_false] at h
        have h1 := elemStep_length_le pattern pi fsm _ _ heq
        have h2 := ih _ _ _ h
        omega

theorem compileLoop_checked_le (pattern : List Nat) :
    ∀ (fuel pi : Nat) (fsm out : List Nat), fsm.length ≤ AllowedMaxFSM →
      compileLoop true pattern fuel pi fsm = .ok out → out.length ≤ AllowedMaxFSM := by
  intro fuel
  induction fuel with
  | zero =>
    intro pi fsm out hle h
    rw [compileLoop] at h
    split at h
    · simp only [Except.ok.injEq] at h; rw [← h]; exact hle
    · simp at h
  | succ fuel ih =>
    intro pi fsm out hle h
    rw [compileLoop] at h
    split at h
    · simp only [Except.ok.injEq] at h; rw [← h]; exact hle
    · split at h
      · simp at h
      · split at h
        · simp at h
        · rename_i hnot
          simp only [Bool.true_and, decide_eq_true_eq, Nat.not_lt] at hnot
          exact ih _ _ _ hnot h

theorem compileLoop_sim (pattern : List Nat) :
    ∀ (fuel pi : Nat) (fsm out : List Nat),
      compileLoop false pattern fuel pi fsm = .ok out →
      fsm.length ≤ AllowedMaxFSM → AllowedMaxFSM < out.length →
      ∃ suf, compileLoop true pattern fuel pi fsm = .error (.patternTooLarge suf) ∧
        suf <:+ pattern := by
  intro fuel
  induction fuel with
  | zero =>
    intro pi fsm out h hle hgt
    rw [compileLoop] at h
    split at h
    · simp only [Except.ok.injEq] at h
      rw [h] at hle
      exact absurd (Nat.lt_of_le_of_lt hle hgt) (Nat.lt_irrefl _)
    · simp at h
  | succ fuel ih =>
    intro pi fsm out h hle hgt
    rw [compileLoop] at h
    rw [compileLoop]
    split at h
    · rename_i hpi
      simp only [Except.ok.injEq] at h
      rw [h] at hle
      exact absurd (Nat.lt_of_le_of_lt hle hgt) (Nat.lt_irrefl _)
    · rename_i hpi
      rw [if_neg hpi]
      split at h
      · simp at h
      · rename_i fsm2 incr2 heq
        simp only [Bool.false_and, Bool.false_eq_true, if_false] at h
        by_cases hbig : AllowedMaxFSM < fsm2.length
        · refine ⟨pattern.drop pi, ?_, List.drop_suffix pi pattern⟩
          simp [hbig]
        · simp only [Nat.not_lt] at hbig
          obtain ⟨suf, herr, hsuf⟩ := ih _ _ _ h hbig hgt
          refine ⟨suf, ?_, hsuf⟩
          simpa [Nat.not_lt.2 hbig] using herr

/-- C4: size-limit enforcement.  First, every program the checked `compile`
returns has at most `AllowedMaxFSM = 4095` bytes (the check runs after every
element and the final header backfill preserves the length).  Second, any
pattern whose compiled form would exceed 4095 bytes — stated via the same
compiler with only the size check disabled — makes `compile` fail with
`patternTooLarge` carrying a suffix of the pattern (the unconsumed part),
returning no truncated program. -/
theorem pattern_too_large_enforced :
    (∀ (pattern prog : List Nat), compile pattern = .ok prog →
        prog.length ≤ AllowedMaxFSM) ∧
      ∀ (pattern prog : List Nat), compileWith false pattern = .ok prog →
        AllowedMaxFSM < prog.length →
        ∃ suf, compile pattern = .error (.patternTooLarge suf) ∧ suf <:+ pattern := by
  constructor
  · intro pattern prog h
    rw [compile, compileWith] at h
    split at h
    · split at h
      · simp at h
      · rename_i fsm hloop
        have hout := compileLoop_checked_le pattern _ _ _ _ (by simp [AllowedMaxFSM]) hloop
        split at h
        · simp only [Except.ok.injEq] at h
          rw [← h, length_emitLengthAt]
          exact hout
        · simp only [Except.ok.injEq] at h
          rw [← h]
          simp [AllowedMaxFSM]
    · simp at h
  · intro pattern prog h hgt
    rw [compileWith] at h
    split at h
    · rename_i hv
      split at h
      · simp at h
      · rename_i fsm hloop
        have hfsm : AllowedMaxFSM < fsm.length := by
          split at h
          · simp only [Except.ok.injEq] at h
            rw [← h, length_emitLengthAt] at hgt
            exact hgt
          · simp only [Except.ok.injEq] at h
            rw [← h] at hgt
            simp [AllowedMaxFSM] at hgt
        obtain ⟨suf, herr, hsuf⟩ :=
          compileLoop_sim pattern _ _ _ _ hloop (by simp [AllowedMaxFSM]) hfsm
        refine ⟨suf, ?_, hsuf⟩
        rw [compile, compileWith, if_pos hv, herr]
    · simp at h

/-- Witness for C4 at a pattern of 4093 letters `a`, whose compiled form
(header plus literal element) would occupy 4099 bytes: `compile` fails with
`patternTooLarge` carrying a suffix of the pattern. -/
theorem hexDigit_zero : hexDigit 0 = 48 := by decide

theorem findIdx_replicate_93 (rest : List Nat) :
    ∀ (k i : Nat), (List.replicate k 97 ++ 93 :: rest).findIdx? (fun c => c == 93) i
      = some (k + i) := by
  intro k
  induction k with
  | zero => intro i; simp
  | succ k ih =>
    intro i
    rw [List.replicate_succ]
    simp only [List.cons_append, List.findIdx?_cons]
    norm_num
    omega

theorem utf8chk_replicate_97 : ∀ k, utf8chk 0 (List.replicate k 97 ++ [93]) = true := by
  intro k
  induction k with
  | zero => rfl
  | succ k ih =>
    rw [List.replicate_succ]
    simpa [utf8chk, sizeOfUTF8CodePoint] using ih

theorem genLoop_replicate (P : List Nat) :
    ∀ (k fuel u : Nat) (acc rest : List Nat), k < fuel →
      P.drop u = List.replicate k 97 ++ 93 :: rest →
      genLoop P fuel u acc
        = .ok (acc ++ (List.replicate k [43, 97]).flatten ++ [93], u + k + 1) := by
  intro k
  induction k with
  | zero =>
    intro fuel u acc rest hf hd
    match fuel, hf with
    | f + 1, _ =>
      have hb : byteAt P u = 93 := by
        have h0 := byteAt_drop P u 0
        rw [hd] at h0
        simpa using h0.symm
      have hcp : codePointAt P u = 93 := codePointAt_of_byte_ascii hb (by omega)
      have hadv : utf8adv P u = u + 1 := utf8adv_of_byte_ascii hb (by omega)
      rw [genLoop]
      simp [hcp, hadv]
  | succ k ih =>
    intro fuel u acc rest hf hd
    match fuel, hf with
    | f + 1, hf =>
      have hb : byteAt P u = 97 := by
        have h0 := byteAt_drop P u 0
        rw [hd] at h0
        simpa [List.replicate_succ] using h0.symm
      have hcp : codePointAt P u = 97 := codePointAt_of_byte_ascii hb (by omega)
      have hadv : utf8adv P u = u + 1 := utf8adv_of_byte_ascii hb (by omega)
      have hdrop1 : P.drop (u + 1) = List.replicate k 97 ++ 93 :: rest := by
        rw [← List.tail_drop, hd, List.replicate_succ]
        rfl
      have hcp1 : codePointAt P (u + 1) ≠ 45 := by
        have h0 := byteAt_drop P (u + 1) 0
        rw [hdrop1] at h0
        cases k with
        | zero =>
          have hb1 : byteAt P (u + 1) = 93 := by simpa using h0.symm
          rw [codePointAt_of_byte_ascii hb1 (by omega)]
          omega
        | succ k =>
          have hb1 : byteAt P (u + 1) = 97 := by
            simpa [List.replicate_succ] using h0.symm
          rw [codePointAt_of_byte_ascii hb1 (by omega)]
          omega
      rw [genLoop]
      simp only [hcp, hadv]
      norm_num [hcp1]
      rw [show codePointToUTF8 97 = [97] from rfl]
      rw [ih f (u + 1) (acc ++ [43, 97]) rest (by omega) hdrop1]
      simp [List.replicate_succ]
      omega

theorem genLoop_single_step {P : List Nat} (fuel u : Nat) (acc : List Nat) (c : Nat)
    (hcp : codePointAt P u = c) (h93 : c ≠ 93)
    (h45 : codePointAt P (utf8adv P u) ≠ 45) :
    genLoop P (fuel + 1) u acc
      = genLoop P fuel (utf8adv P u) (acc ++ [43] ++ codePointToUTF8 c) := by
  rw [genLoop]
  simp only [hcp]
  rw [if_neg h93, if_neg (fun h => h45 h.1)]

theorem compileClass_general {pattern : List Nat} {base close : Nat} (fsm : List Nat)
    (h1 : (byteAt pattern (base + 1) == 33 || byteAt pattern (base + 1) == 94) = false)
    (h2 : (byteAt pattern (base + 1) == 93) = false)
    (hfind : findIdxFrom pattern (base + 1) (· == 93) = some close)
    (hascii : ((pattern.drop (base + 1)).take (close - (base + 1))).all isascii = false) :
    compileClass pattern base fsm
      = match genLoop pattern (pattern.length + 1) (base + 1)
              (fsm ++ [91, hexDigit 0] ++ [95, 95]) with
        | .error e => .error e
        | .ok (fsm4, uEnd) =>
          .ok (emitLengthAt fsm4 (fsm ++ [91, hexDigit 0]).length
                (fsm4.length - fsm.length - (1 + 1 + LengthSize + 1)), uEnd - base) := by
  rw [compileClass]
  simp only [h1, h2, Bool.false_eq_true, if_false, hfind, hascii]

theorem bigPat_length : bigPat.length = 2047 := by
  rw [bigPat, List.length_append, List.length_append, List.length_replicate]
  rfl

theorem bigFSM4_length : bigFSM4.length = 4097 := by
  rw [bigFSM4, List.length_append, List.length_append, List.length_flatten,
    List.map_replicate, List.sum_const_nat]
  rfl

theorem utf8chk_cons_ascii {c : Nat} (l : List Nat) (hc : sizeOfUTF8CodePoint c = 1) :
    utf8chk 0 (c :: l) = utf8chk 0 l := by
  conv_lhs => rw [utf8chk.eq_def]
  simp only [hc]

theorem utf8chk_cons_cont {c b : Nat} (l : List Nat) (hc : sizeOfUTF8CodePoint c = 2)
    (hb : b &&& 0xc0 = 0x80) : utf8chk 0 (c :: b :: l) = utf8chk 0 l := by
  conv_lhs => rw [utf8chk.eq_def]
  simp only [hc]
  conv_lhs => rw [utf8chk.eq_def]
  simp only [hb]
  norm_num

theorem bigPat_valid : validateUTF8String bigPat = true := by
  show utf8chk 0 (91 :: 206 :: 177 :: (List.replicate 2043 97 ++ [93])) = true
  rw [utf8chk_cons_ascii _ (by decide), utf8chk_cons_cont _ (by decide) (by decide),
    utf8chk_replicate_97]

theorem bigPat_find : findIdxFrom bigPat 1 (· == 93) = some 2046 := by
  have hd1 : bigPat.drop 1 = [206, 177] ++ (List.replicate 2043 97 ++ [93]) := rfl
  rw [findIdxFrom, hd1]
  simp only [List.cons_append, List.findIdx?_cons]
  norm_num

theorem bigPat_ascii : ((bigPat.drop 1).take (2046 - 1)).all isascii = false := by
  have hd1 : bigPat.drop 1 = [206, 177] ++ (List.replicate 2043 97 ++ [93]) := rfl
  have ht : (([206, 177] ++ (List.replicate 2043 97 ++ [93]) : List Nat).take 2045)
      = 206 :: (([177] ++ (List.replicate 2043 97 ++ [93])).take 2044) := rfl
  rw [hd1, show (2046 - 1 : Nat) = 2045 from rfl, ht, List.all_cons,
    show isascii 206 = false from by decide, Bool.false_and]

theorem bigPat_genLoop :
    genLoop bigPat 2048 1 [35, 95, 95, 91, 48, 95, 95] = .ok (bigFSM4, 2047) := by
  have hb1 : byteAt bigPat 1 = 206 := rfl
  have hb2 : byteAt bigPat 2 = 177 := rfl
  have hb3 : byteAt bigPat 3 = 97 := rfl
  have hcp1 : codePointAt bigPat 1 = 945 := by
    rw [codePointAt_two hb1 hb2 (by decide)]
    decide
  have hadv1 : utf8adv bigPat 1 = 3 := by
    rw [utf8adv, hb1]
    decide
  have hcp3 : codePointAt bigPat 3 = 97 := codePointAt_of_byte_ascii hb3 (by omega)
  have hdrop3 : bigPat.drop 3 = List.replicate 2043 97 ++ 93 :: [] := rfl
  rw [show (2048 : Nat) = 2047 + 1 from rfl]
  rw [genLoop_single_step 2047 1 _ 945 hcp1 (by omega)
        (by rw [hadv1, hcp3]; omega)]
  rw [hadv1]
  rw [show codePointToUTF8 945 = [206, 177] from by decide]
  rw [genLoop_replicate bigPat 2043 2047 3
        ([35, 95, 95, 91, 48, 95, 95] ++ [43] ++ [206, 177]) [] (by omega) hdrop3]
  rw [bigFSM4]
  norm_num

theorem bigPat_compileClass :
    compileClass bigPat 0 [35, 95, 95] = .ok (emitLengthAt bigFSM4 5 4089, 2047) := by
  rw [compileClass_general [35, 95, 95] (by decide) (by decide) bigPat_find bigPat_ascii]
  rw [hexDigit_zero]
  rw [show ([35, 95, 95] ++ [91, 48] ++ [95, 95] : List Nat)
        = [35, 95, 95, 91, 48, 95, 95] from rfl]
  rw [bigPat_length]
  rw [show (2047 + 1 : Nat) = 2048 from rfl]
  rw [bigPat_genLoop]
  dsimp only
  rw [bigFSM4_length]
  rw [show ([35, 95, 95] : List Nat).length = 3 from rfl]
  norm_num [LengthSize]

theorem bigPat_elemStep :
    elemStep bigPat 0 [35, 95, 95] = .ok (emitLengthAt bigFSM4 5 4089, 2047) := by
  rw [elemStep]
  have hb0 : byteAt bigPat 0 = 91 := rfl
  rw [hb0]
  rw [if_neg (by norm_num), if_neg (by norm_num), if_pos rfl]
  exact bigPat_compileClass

theorem bigPat_loop :
    compileLoop false bigPat 2048 0 [35, 95, 95] = .ok (emitLengthAt bigFSM4 5 4089) := by
  rw [show (2048 : Nat) = 2047 + 1 from rfl]
  rw [compileLoop]
  rw [if_neg (by rw [bigPat_length]; omega)]
  rw [bigPat_elemStep]
  simp only [Bool.false_and, Bool.false_eq_true, if_false]
  rw [show (0 + 2047 : Nat) = 2047 from rfl]
  rw [show (2047 : Nat) = 2046 + 1 from rfl]
  rw [compileLoop]
  rw [if_pos (by rw [bigPat_length])]

theorem bigPat_unchecked_compile :
    compileWith false bigPat = .ok (emitLengthAt (emitLengthAt bigFSM4 5 4089) 1 4094) := by
  rw [compileWith, if_pos bigPat_valid, bigPat_length]
  rw [show (2047 + 1 : Nat) = 2048 from rfl]
  rw [bigPat_loop]
  dsimp only
  rw [length_emitLengthAt, bigFSM4_length]
  norm_num [LengthSize]

theorem bigProg_exceeds :
    AllowedMaxFSM < (emitLengthAt (emitLengthAt bigFSM4 5 4089) 1 4094).length := by
  rw [length_emitLengthAt, length_emitLengthAt, bigFSM4_length, AllowedMaxFSM]
  norm_num

/-- Witness for C4 at the pattern `bigPat` (one general-path class with 2044
members), whose compiled form occupies 4097 bytes: `compile` fails with
`patternTooLarge` carrying a suffix of the pattern. -/
theorem pattern_too_large_enforced_witness :
    ∃ suf, compile bigPat = .error (.patternTooLarge suf) ∧ suf <:+ bigPat :=
  pattern_too_large_enforced.2 bigPat (emitLengthAt (emitLengthAt bigFSM4 5 4089) 1 4094)
    bigPat_unchecked_compile bigProg_exceeds

/-!
### C6 — a bracket class consumes at most one code point
-/

theorem findCP_spec (t : List Nat) (pred : Nat → Bool) :
    ∀ (fuel i j : Nat), findCP t pred fuel i = some j →
      i ≤ j ∧ pred (codePointAt t j) = true := by
  intro fuel
  induction fuel with
  | zero => intro i j h; simp [findCP] at h
  | succ fuel ih =>
    intro i j h
    rw [findCP] at h
    split at h
    · simp at h
    · split at h
      · rename_i hpred
        simp only [Option.some.injEq] at h
        rw [← h]
        exact ⟨Nat.le_refl i, hpred⟩
      · have h2 := ih _ _ h
        exact ⟨Nat.le_trans (Nat.le_add_right i _) h2.1, h2.2⟩

/-- C6: every dispatch step at a bracket-class opcode (fast-path `{`, or a
general-path single `+` or range `-` operator) either leaves the target
cursor where it was (an operator whose test failed falls through to the
next operator without consuming), or moves it to exactly one code point
past some position at or after the cursor where that opcode's membership
test succeeded.  A class therefore never consumes more than one code point
past the position where it matched, and a following `*`, `?` or another
class is dispatched as an independent instruction on the new state. -/
theorem xor_of_ne {a b : Bool} (h : ¬ a = b) : Bool.xor a b = true := by
  cases a <;> cases b <;> simp_all

theorem class_consumes_at_most_one (prog target : List Nat) (last : Nat) (s s' : MState)
    (hop : byteAt prog s.mi = 123 ∨ byteAt prog s.mi = 43 ∨ byteAt prog s.mi = 45)
    (hstep : rstep prog target last s = .cont s') :
    s'.ti = s.ti ∨
      ∃ p, s.ti ≤ p ∧ classTestAt prog target s p = true ∧ s'.ti = utf8adv target p := by
  by_cases hlast : s.mi = last
  · rw [rstep, if_pos hlast] at hstep
    exact absurd hstep (by simp)
  rw [rstep, if_neg hlast] at hstep
  rcases hop with hop | hop | hop
  · simp only [hop] at hstep
    norm_num at hstep
    by_cases hA : s.anchored
    · rw [if_pos hA] at hstep
      split at hstep
      · rename_i htest
        right
        refine ⟨s.ti, Nat.le_refl _, ?_, ?_⟩
        · rw [classTestAt, if_pos hop]
          simpa using htest
        · simp only [StepRes.cont.injEq] at hstep
          rw [← hstep]
      · exact absurd hstep (by simp)
    · rw [if_neg hA] at hstep
      split at hstep
      · exact absurd hstep (by simp)
      · rename_i i hf
        have hspec := findCP_spec target _ _ _ _ hf
        right
        refine ⟨i, hspec.1, ?_, ?_⟩
        · rw [classTestAt, if_pos hop]
          simpa using hspec.2
        · simp only [StepRes.cont.injEq] at hstep
          rw [← hstep]
  · simp only [hop] at hstep
    norm_num at hstep
    by_cases hA : s.anchored
    · rw [if_pos hA] at hstep
      split at hstep
      · left
        simp only [StepRes.cont.injEq] at hstep
        rw [← hstep]
      · rename_i htest
        right
        refine ⟨s.ti, Nat.le_refl _, ?_, ?_⟩
        · rw [classTestAt, if_neg (by rw [hop]; omega), if_pos hop]
          apply xor_of_ne
          simpa using htest
        · simp only [StepRes.cont.injEq] at hstep
          rw [← hstep]
    · rw [if_neg hA] at hstep
      split at hstep
      · left
        simp only [StepRes.cont.injEq] at hstep
        rw [← hstep]
      · rename_i i hf
        have hspec := findCP_spec target _ _ _ _ hf
        right
        refine ⟨i, hspec.1, ?_, ?_⟩
        · rw [classTestAt, if_neg (by rw [hop]; omega), if_pos hop]
          simpa using hspec.2
        · simp only [StepRes.cont.injEq] at hstep
          rw [← hstep]
  · simp only [hop] at hstep
    norm_num at hstep
    by_cases hA : s.anchored
    · rw [if_pos hA] at hstep
      split at hstep
      · left
        simp only [StepRes.cont.injEq] at hstep
        rw [← hstep]
      · rename_i htest
        right
        refine ⟨s.ti, Nat.le_refl _, ?_, ?_⟩
        · rw [classTestAt, if_neg (by rw [hop]; omega), if_neg (by rw [hop]; omega),
            if_pos hop]
          apply xor_of_ne
          simpa using htest
        · simp only [StepRes.cont.injEq] at hstep
          rw [← hstep]
    · rw [if_neg hA] at hstep
      split at hstep
      · left
        simp only [StepRes.cont.injEq] at hstep
        rw [← hstep]
      · rename_i i hf
        have hspec := findCP_spec target _ _ _ _ hf
        right
        refine ⟨i, hspec.1, ?_, ?_⟩
        · rw [classTestAt, if_neg (by rw [hop]; omega), if_neg (by rw [hop]; omega),
            if_pos hop]
          simpa using hspec.2
        · simp only [StepRes.cont.injEq] at hstep
          rw [← hstep]

/-- Witness for C6: a fast-path class for `[a]` matching the target `"a"`
advances the cursor one code point past the matched position. -/
theorem class_consumes_at_most_one_witness :
    (⟨33, 1, true, false, 0⟩ : MState).ti = (⟨0, 0, true, false, 0⟩ : MState).ti ∨
      ∃ p, (⟨0, 0, true, false, 0⟩ : MState).ti ≤ p ∧
        classTestAt ([123] ++ emitPackedBitset (classBitset false false [97, 93])) [97]
          ⟨0, 0, true, false, 0⟩ p = true ∧
        (⟨33, 1, true, false, 0⟩ : MState).ti = utf8adv [97] p :=
  class_consumes_at_most_one ([123] ++ emitPackedBitset (classBitset false false [97, 93]))
    [97] 99 ⟨0, 0, true, false, 0⟩ ⟨33, 1, true, false, 0⟩ (by left; rfl) (by decide)

/-!
### C7 — inverted general-path classes with two distinct single members
-/

/-- C7: in the general path each single-member operator tests
`(p == tx) ^ invert` individually and a success jumps to the end of the
class.  Hence for an inverted class whose first two operators are single
members with distinct code points `c1 ≠ c2`, execution from the first
operator in anchored mode consumes one code point and jumps to `next` for
every target code point — including `c1` and `c2` themselves: if the target
code point differs from `c1` the first operator accepts it; if it equals
`c1` the first operator falls through and the second accepts it because
`c2 ≠ c1`. -/
theorem inverted_class_two_singles_accepts_all (prog target : List Nat) (last : Nat)
    (s : MState)
    (hlast1 : s.mi ≠ last)
    (hop1 : byteAt prog s.mi = 43)
    (hanch : s.anchored = true) (hinv : s.invert = true)
    (hlast2 : s.mi + 1 + sizeOfUTF8CodePoint (byteAt prog (s.mi + 1)) ≠ last)
    (hop2 : byteAt prog (s.mi + 1 + sizeOfUTF8CodePoint (byteAt prog (s.mi + 1))) = 43)
    (hne : codePointAt prog (s.mi + 1)
      ≠ codePointAt prog (s.mi + 1 + sizeOfUTF8CodePoint (byteAt prog (s.mi + 1)) + 1)) :
    rstep prog target last s = .cont ⟨s.next, utf8adv target s.ti, true, true, s.next⟩ ∨
      (rstep prog target last s
          = .cont ⟨s.mi + 1 + sizeOfUTF8CodePoint (byteAt prog (s.mi + 1)), s.ti,
                   true, true, s.next⟩ ∧
        rstep prog target last
            ⟨s.mi + 1 + sizeOfUTF8CodePoint (byteAt prog (s.mi + 1)), s.ti,
             true, true, s.next⟩
          = .cont ⟨s.next, utf8adv target s.ti, true, true, s.next⟩) := by
  by_cases hc1 : codePointAt prog (s.mi + 1) = codePointAt target s.ti
  · right
    constructor
    · rw [rstep, if_neg hlast1]
      simp only [hop1, hanch, hinv]
      norm_num
      exact fun h => absurd hc1 h
    · rw [rstep]
      rw [if_neg hlast2]
      simp only [hop2]
      norm_num
      exact fun h => absurd (hc1.trans h.symm) hne
  · left
    rw [rstep, if_neg hlast1]
    simp only [hop1, hanch, hinv]
    norm_num
    exact fun h => absurd h hc1

/-- Witness for C7 on the bytecode of the inverted class `[^ab]` (operators
`+a`, `+b`) at the target `"a"`: the first operator refuses `a` (it is the
listed member), the second accepts it, consuming one code point. -/
theorem inverted_class_two_singles_accepts_all_witness :
    rstep [43, 97, 43, 98] [97] 9 ⟨0, 0, true, true, 9⟩
        = .cont ⟨9, utf8adv [97] 0, true, true, 9⟩ ∨
      (rstep [43, 97, 43, 98] [97] 9 ⟨0, 0, true, true, 9⟩
          = .cont ⟨0 + 1 + sizeOfUTF8CodePoint (byteAt [43, 97, 43, 98] (0 + 1)), 0,
                   true, true, 9⟩ ∧
        rstep [43, 97, 43, 98] [97] 9
            ⟨0 + 1 + sizeOfUTF8CodePoint (byteAt [43, 97, 43, 98] (0 + 1)), 0, true, true, 9⟩
          = .cont ⟨9, utf8adv [97] 0, true, true, 9⟩) :=
  inverted_class_two_singles_accepts_all [43, 97, 43, 98] [97] 9 ⟨0, 0, true, true, 9⟩
    (by decide) (by decide) rfl rfl (by decide) (by decide) (by decide)

/-!
### C3 — fast-path bitmap net effect
-/

theorem bitFlip_testBit (b c d : Nat) :
    (bitFlip b c).testBit d = Bool.xor (b.testBit d) (decide (c = d)) := by
  rw [bitFlip, Nat.testBit_xor, Nat.shiftLeft_eq, one_mul, Nat.testBit_two_pow]

theorem xor_decide_decide (P Q R : Prop) [Decidable P] [Decidable Q] [Decidable R]
    (hpq : ¬(P ∧ Q)) (hr : R ↔ (P ∨ Q)) :
    Bool.xor (decide P) (decide Q) = decide R := by
  by_cases hp : P <;> by_cases hq : Q
  · exact absurd ⟨hp, hq⟩ hpq
  · simp [hp, hq, hr]
  · simp [hp, hq, hr]
  · simp [hp, hq, hr]

theorem foldl_bitFlip_testBit (d : Nat) :
    ∀ (n start b : Nat),
      ((List.range' start n).foldl bitFlip b).testBit d
        = Bool.xor (b.testBit d) (decide (start ≤ d ∧ d < start + n)) := by
  intro n
  induction n with
  | zero =>
    intro start b
    have h : (start ≤ d ∧ d < start) = False := eq_false (by omega)
    simp [List.range', h]
  | succ n ih =>
    intro start b
    rw [List.range'_succ, List.foldl_cons, ih (start + 1) (bitFlip b start), bitFlip_testBit,
      Bool.xor_assoc]
    congr 1
    exact xor_decide_decide _ _ _ (by omega) (by omega)

theorem bitFlipRange_testBit (b c1 c3 d : Nat) :
    (bitFlipRange b c1 c3).testBit d
      = Bool.xor (b.testBit d) (decide (c1 ≤ d ∧ d ≤ c3)) := by
  rw [bitFlipRange, foldl_bitFlip_testBit]
  congr 1
  exact decide_eq_decide.mpr (by omega)

theorem parity_add (P : Prop) [Decidable P] (m : Nat) :
    Bool.xor (decide P) (decide (m % 2 = 1))
      = decide (((if P then 1 else 0) + m) % 2 = 1) := by
  by_cases h : P <;> by_cases hm : m % 2 = 1
  · have h2 : ¬((1 + m) % 2 = 1) := by omega
    simp [h, hm, h2]
  · have h2 : (1 + m) % 2 = 1 := by omega
    simp [h, hm, h2]
  · simp [h, hm]
  · simp [h, hm]

theorem flipLoop_testBit (d : Nat) : ∀ (body : List Nat) (b : Nat),
    (flipLoop body b).testBit d
      = Bool.xor (b.testBit d) (decide (countCover d body % 2 = 1))
  | [], b => by
    simp [flipLoop, countCover]
  | [c1], b => by
    rw [show flipLoop [c1] b = if c1 = 93 then b else flipLoop [] (bitFlip b c1) from rfl,
        show countCover d [c1]
          = if c1 = 93 then 0 else (if c1 = d then 1 else 0) + countCover d [] from rfl]
    by_cases h93 : c1 = 93
    · simp [h93]
    · rw [if_neg h93, if_neg h93, flipLoop_testBit d [] (bitFlip b c1), bitFlip_testBit,
        Bool.xor_assoc, parity_add]
  | [c1, c2], b => by
    rw [show flipLoop [c1, c2] b = if c1 = 93 then b else flipLoop [c2] (bitFlip b c1) from rfl,
        show countCover d [c1, c2]
          = if c1 = 93 then 0 else (if c1 = d then 1 else 0) + countCover d [c2] from rfl]
    by_cases h93 : c1 = 93
    · simp [h93]
    · rw [if_neg h93, if_neg h93, flipLoop_testBit d [c2] (bitFlip b c1), bitFlip_testBit,
        Bool.xor_assoc, parity_add]
  | c1 :: c2 :: c3 :: rest2, b => by
    rw [show flipLoop (c1 :: c2 :: c3 :: rest2) b
          = if c1 = 93 then b
            else if c2 = 45 ∧ c3 ≠ 93 then flipLoop rest2 (bitFlipRange b c1 c3)
            else flipLoop (c2 :: c3 :: rest2) (bitFlip b c1) from rfl,
        show countCover d (c1 :: c2 :: c3 :: rest2)
          = if c1 = 93 then 0
            else if c2 = 45 ∧ c3 ≠ 93 then
              (if c1 ≤ d ∧ d ≤ c3 then 1 else 0) + countCover d rest2
            else (if c1 = d then 1 else 0) + countCover d (c2 :: c3 :: rest2) from rfl]
    by_cases h93 : c1 = 93
    · simp [h93]
    rw [if_neg h93, if_neg h93]
    by_cases hr : c2 = 45 ∧ c3 ≠ 93
    · rw [if_pos hr, if_pos hr, flipLoop_testBit d rest2 (bitFlipRange b c1 c3),
        bitFlipRange_testBit, Bool.xor_assoc, parity_add]
    · rw [if_neg hr, if_neg hr, flipLoop_testBit d (c2 :: c3 :: rest2) (bitFlip b c1),
        bitFlip_testBit, Bool.xor_assoc, parity_add]

theorem decide_parity_succ (m : Nat) :
    decide ((1 + m) % 2 = 1) = !decide (m % 2 = 1) := by
  by_cases hm : m % 2 = 1
  · have h2 : ¬((1 + m) % 2 = 1) := by omega
    simp [hm, h2]
  · have h2 : (1 + m) % 2 = 1 := by omega
    simp [hm, h2]

theorem classBitset_testBit (invert lcb : Bool) (body : List Nat) (c : Nat) (hc : c < 128) :
    (classBitset invert lcb body).testBit c
      = Bool.xor (decide (classCover lcb body c % 2 = 1)) invert := by
  have h1 : (2 ^ 128 - 1 : Nat).testBit c = true := by
    rw [Nat.testBit_two_pow_sub_one]
    exact decide_eq_true hc
  have h93c : ((93 : Nat) = c) ↔ (c = 93) := eq_comm
  simp only [classBitset]
  rw [flipLoop_testBit, classCover]
  generalize hT : (2 ^ 128 - 1 : Nat) = T
  rw [hT] at h1
  cases invert <;> cases lcb <;> by_cases h93 : c = 93 <;>
    simp [bitFlip_testBit, h1, h93c, h93, decide_parity_succ, Nat.zero_testBit,
      Bool.xor_true, Bool.xor_false, Bool.true_xor, Bool.false_xor, Bool.not_not] <;>
    simp_all

theorem nibbleOf_lt_sixteen (b c : Nat) : nibbleOf b c < 16 := by
  unfold nibbleOf
  split <;> split <;> split <;> split <;> decide

theorem hexValue_hexDigit : ∀ m, m < 16 → hexValue (hexDigit m) = m := by decide

theorem nibbleOf_testBit (b m : Nat) : ∀ r, r < 4 → (nibbleOf b m).testBit r = b.testBit (m + r) := by
  intro r hr
  interval_cases r <;>
    by_cases h0 : b.testBit m <;> by_cases h1 : b.testBit (m + 1) <;>
    by_cases h2 : b.testBit (m + 2) <;> by_cases h3 : b.testBit (m + 3) <;>
    simp [nibbleOf, h0, h1, h2, h3] <;> decide

theorem testPackedBitsetAt_emitPackedBitset (b c : Nat) (hc : c < 128) :
    testPackedBitsetAt (emitPackedBitset b) 0 c = b.testBit c := by
  have hq4 : (127 - c) >>> 2 = 31 - c / 4 := by
    rw [Nat.shiftRight_eq_div_pow, show (2 : Nat) ^ 2 = 4 from rfl]
    omega
  have hm3 : (127 - c) &&& 3 = 3 - c % 4 := by
    have h := Nat.and_pow_two_sub_one_eq_mod (127 - c) 2
    rw [show ((2 : Nat) ^ 2 - 1) = 3 from rfl, show ((2 : Nat) ^ 2) = 4 from rfl] at h
    rw [h]
    omega
  have hq32 : 31 - c / 4 < 32 := by omega
  have hbyte : byteAt (emitPackedBitset b) (31 - c / 4)
      = hexDigit (nibbleOf b (124 - 4 * (31 - c / 4))) := by
    rw [byteAt, emitPackedBitset, List.getD_eq_getElem?_getD, List.getElem?_map,
      List.getElem?_range hq32]
    rfl
  have h124 : 124 - 4 * (31 - c / 4) = 4 * (c / 4) := by omega
  rw [testPackedBitsetAt, packedBitsetNibbleAt, packedBitsetMask, Nat.zero_add, hq4, hm3,
    hbyte, h124, hexValue_hexDigit _ (nibbleOf_lt_sixteen b _)]
  have hr : c % 4 < 4 := by omega
  have hc4 : c = 4 * (c / 4) + c % 4 := by omega
  have hnib := nibbleOf_testBit b (4 * (c / 4)) (c % 4) hr
  rw [← hc4] at hnib
  rw [← hnib]
  have hnlt := nibbleOf_lt_sixteen b (4 * (c / 4))
  revert hnlt
  generalize nibbleOf b (4 * (c / 4)) = x
  intro hnlt
  have hall : ∀ x < 16, ∀ r < 4,
      decide (x &&& [8, 4, 2, 1].getD (3 - r) 0 ≠ 0) = x.testBit r := by decide
  exact hall x hnlt (c % 4) hr

/-- C3: the net effect of the fast-path double-flip bitmap is parity, not
membership: for every ASCII code point `c` the emitted packed bitmap's bit is
`(coverage count of c is odd) XOR invert` — so a code point listed an even
number of times (for example twice, as in `[aa]`) ends up with bit 0 and
fails to match even though it is a listed member, contradicting the claimed
"member bit ends up 1 when not inverted" net effect.  The concrete
conjuncts show `[aa]`: compile succeeds, `a` is covered twice, its bit in
the emitted program is clear, and matching the single character `a` returns
false. -/
theorem fast_class_bitmap_parity :
    (∀ (invert lcb : Bool) (body : List Nat) (c : Nat), c < 128 →
        testPackedBitsetAt (emitPackedBitset (classBitset invert lcb body)) 0 c
          = Bool.xor (decide (classCover lcb body c % 2 = 1)) invert) ∧
      compile [91, 97, 97, 93] = .ok ([35, 65, 104, 123] ++ List.replicate 32 48) ∧
      classCover false [97, 97, 93] 97 = 2 ∧
      testPackedBitsetAt ([35, 65, 104, 123] ++ List.replicate 32 48) 4 97 = false ∧
      matcherMatch ([35, 65, 104, 123] ++ List.replicate 32 48) [97] = .ok false := by
  refine ⟨?_, rfl, by decide, by decide, rfl⟩
  intro invert lcb body c hc
  rw [testPackedBitsetAt_emitPackedBitset _ _ hc, classBitset_testBit _ _ _ _ hc]

/-- Witness for C3: the parity law applied at the concrete class `[aa]`
(no inversion, no leading `]`) and code point `a` = 97. -/
theorem fast_class_bitmap_parity_witness :
    97 < 128 ∧
      testPackedBitsetAt (emitPackedBitset (classBitset false false [97, 97, 93])) 0 97
        = Bool.xor (decide (classCover false [97, 97, 93] 97 % 2 = 1)) false :=
  ⟨by decide, fast_class_bitmap_parity.1 false false [97, 97, 93] 97 (by decide)⟩

end rglob
